import Mathlib

/-!
# Verification of the Veloren worldgen statistics core (`world/src/sim/util.rs`)

This file gives a shallow embedding of the two components specified for the
repository core:

* the rank-based uniformization transform `uniform_noise` together with the
  grid-index helpers `uniform_idx_as_vec2` / `vec2_as_uniform_idx`, and
* the closed-form weighted Irwin–Hall CDF evaluator `cdf_irwin_hall`,

followed by theorems settling the frozen claims about them.

Modelling conventions:

* `f32` values are modelled by exact rationals `ℚ`; IEEE rounding is not
  modelled (the spec states the algorithms are exact in exact arithmetic).
  Since `f32` additionally has the non-value `NaN`, which drives the panic
  behaviour of `uniform_noise`, sampled values are modelled by the type `F32`
  below: either `F32.nan` or an exact numeric value `F32.val q`.
* machine integers are modelled by `ℕ`/`ℤ` with explicit wrap-arounds:
  the `i32` product `(1..=N).product::<i32>()` wraps modulo `2^32`
  (two's complement, Rust release-profile semantics) and the pointer-size
  casts in the grid-index helpers wrap modulo `2^64` / `2^32`.
* a Rust panic (the `.unwrap()` on a failed `partial_cmp`) is modelled by
  `Option`: `none` is a panic, `some` a normal return.
* `WORLD_SIZE` and `TerrainChunkSize::RECT_SIZE` are configuration constants
  defined outside the provided sources (`world/src/sim/mod.rs`,
  `common/src/terrain.rs`); per the spec ("treat it as an explicit parameter
  passed into every operation") the grid dimensions are explicit parameters
  `wx`, `wy` here.  The world-space position passed to the sampling callback
  is a pure function of the flat index alone (the grid coordinate scaled by
  the chunk size), so the callback is modelled as a function of the index.
* Rust's `sort_unstable_by` with the panicking comparator is modelled by an
  insertion sort in the `Option` monad (`sortByCmp`): it returns `none` as
  soon as a performed comparison returns `None`.  Like the real sort it
  performs no comparison on lists of length ≤ 1, and on lists of length ≥ 2
  every element takes part in at least one comparison, so the model panics
  exactly when the real code does: iff a `NaN` is present among at least two
  collected samples.
-/

/-- Model of an `f32` sample value: either NaN or an exact numeric value. -/
inductive F32 where
  | nan : F32
  | val : ℚ → F32
deriving DecidableEq, Repr

/-- `f32::partial_cmp`: `None` whenever either operand is NaN, otherwise the
numeric comparison. -/
def cmpF32 : F32 → F32 → Option Ordering
  | F32.val p, F32.val q =>
      some (if p < q then Ordering.lt else if q < p then Ordering.gt else Ordering.eq)
  | _, _ => none

/-- `usize::partial_cmp` (always succeeds); comparison of flat indices. -/
def cmpIdx (i j : ℕ) : Ordering :=
  if i < j then Ordering.lt else if j < i then Ordering.gt else Ordering.eq

/-- The comparator `(f.1, f.0).partial_cmp(&(g.1, g.0))` from `uniform_noise`:
lexicographic on (noise value, flat index), failing if a value is NaN.
An entry is a pair `(chunk_idx, noise_val)` as collected by the code. -/
def cmpEntry (a b : ℕ × F32) : Option Ordering :=
  match cmpF32 a.2 b.2 with
  | some Ordering.eq => some (cmpIdx a.1 b.1)
  | o => o

/-- One insertion step of the sort model: insert `a` into an already sorted
list, propagating a comparator failure (= panic of the `unwrap`). -/
def insertCmp (a : ℕ × F32) : List (ℕ × F32) → Option (List (ℕ × F32))
  | [] => some [a]
  | b :: l =>
    match cmpEntry a b with
    | none => none
    | some Ordering.gt => (insertCmp a l).map (fun l' => b :: l')
    | some _ => some (a :: b :: l)

/-- Model of `noise.sort_unstable_by(|f, g| (f.1, f.0).partial_cmp(&(g.1, g.0)).unwrap())`:
sorts when every performed comparison succeeds, `none` (panic) otherwise. -/
def sortByCmp : List (ℕ × F32) → Option (List (ℕ × F32))
  | [] => some []
  | a :: l => (sortByCmp l).bind (insertCmp a)

/-- The list `noise` collected by `uniform_noise` before sorting:
`(0..n).filter_map(|i| f(i, pos).map(|res| (i, res)))` with `n = wx*wy`. -/
def noisePairs (n : ℕ) (f : ℕ → Option F32) : List (ℕ × F32) :=
  (List.range n).filterMap (fun i => (f i).map (fun res => (i, res)))

/-- Number of grid cells with a present sample (`noise.len()` in the code,
described by the spec as "the number of present (non-absent) samples across
the whole grid"). -/
def totalCount (n : ℕ) (f : ℕ → Option F32) : ℕ :=
  (List.range n).countP (fun i => (f i).isSome)

/-- Strict ascending order on collected entries: by value, then by flat index
(the sort key `(value, index)` of the spec).  False on NaN entries. -/
def entryLt (a b : ℕ × F32) : Prop :=
  match a.2, b.2 with
  | F32.val p, F32.val q => p < q ∨ (p = q ∧ a.1 < b.1)
  | _, _ => False

/-- Non-strict version of `entryLt`. -/
def entryLe (a b : ℕ × F32) : Prop :=
  match a.2, b.2 with
  | F32.val p, F32.val q => p < q ∨ (p = q ∧ a.1 ≤ b.1)
  | _, _ => False

instance decEntryLt : ∀ a b : ℕ × F32, Decidable (entryLt a b) := fun a b =>
  match a, b with
  | (i, F32.val p), (j, F32.val q) =>
      (inferInstance : Decidable (p < q ∨ (p = q ∧ i < j)))
  | (_, F32.nan), _ => isFalse (fun h => h)
  | (_, F32.val _), (_, F32.nan) => isFalse (fun h => h)

instance decEntryLe : ∀ a b : ℕ × F32, Decidable (entryLe a b) := fun a b =>
  match a, b with
  | (i, F32.val p), (j, F32.val q) =>
      (inferInstance : Decidable (p < q ∨ (p = q ∧ i ≤ j)))
  | (_, F32.nan), _ => isFalse (fun h => h)
  | (_, F32.val _), (_, F32.nan) => isFalse (fun h => h)

/-- 1-based rank of a present sample, exactly as the claims describe it: the
1-based position of the pair `(value, index)` in the ascending sort of all
present pairs by value with flat index as secondary key.  Since all keys are
distinct (indices are unique), this position equals 1 + the number of present
pairs that are strictly below it in that order. -/
def rank (n : ℕ) (f : ℕ → Option F32) (i : ℕ) (v : F32) : ℕ :=
  1 + (noisePairs n f).countP (fun e => decide (entryLt e (i, v)))

/-- The write-back loop of `uniform_noise`:
`for (noise_idx, (chunk_idx, noise_val)) in noise.into_iter().enumerate()`
writes `((1 + noise_idx) as f32 / total, noise_val)` at `chunk_idx`.
`es` is the enumerated sorted list, `init` the grid of `(0.0, 0.0)` pairs. -/
def writeRanks (total : ℚ) (es : List (ℕ × (ℕ × F32))) (init : List (ℚ × F32)) :
    List (ℚ × F32) :=
  es.foldl (fun acc e => acc.set e.2.1 (((1 + e.1 : ℕ) : ℚ) / total, e.2.2)) init

/-- Model of `uniform_noise` (`world/src/sim/util.rs:139-166`), grid
dimensions passed explicitly.  Collect the present samples, sort them with
the panicking comparator, then write `((1 + sorted_position) / total, value)`
at each present cell of a grid initialised with `(0.0, 0.0)`. -/
def uniform_noise (wx wy : ℕ) (f : ℕ → Option F32) : Option (List (ℚ × F32)) :=
  (sortByCmp (noisePairs (wx * wy) f)).map (fun noise =>
    writeRanks (noise.length : ℚ) noise.enum
      (List.replicate (wx * wy) ((0 : ℚ), F32.val 0)))

/-- The `usize → i32` cast (`as i32`): wrap modulo `2^32` into the signed
range (two's complement). -/
def i32_of_usize (n : ℕ) : ℤ :=
  if n % 2 ^ 32 < 2 ^ 31 then ((n % 2 ^ 32 : ℕ) : ℤ) else ((n % 2 ^ 32 : ℕ) : ℤ) - 2 ^ 32

/-- The `i32 → usize` cast (`as usize`): sign-extend and reinterpret, i.e.
wrap modulo `2^64`. -/
def usize_of_i32 (z : ℤ) : ℕ := (z % 2 ^ 64).toNat

/-- Model of `uniform_idx_as_vec2` (`world/src/sim/util.rs:98-100`):
`Vec2::new((idx % WORLD_SIZE.x) as i32, (idx / WORLD_SIZE.x) as i32)`. -/
def uniform_idx_as_vec2 (wx : ℕ) (idx : ℕ) : ℤ × ℤ :=
  (i32_of_usize (idx % wx), i32_of_usize (idx / wx))

/-- Model of `vec2_as_uniform_idx` (`world/src/sim/util.rs:104-106`):
`(idx.y as usize * WORLD_SIZE.x + idx.x as usize) as usize`; the `usize`
arithmetic wraps modulo `2^64`. -/
def vec2_as_uniform_idx (wx : ℕ) (v : ℤ × ℤ) : ℕ :=
  (usize_of_i32 v.2 * wx + usize_of_i32 v.1) % 2 ^ 64

/-- `u32::count_ones` of the subset counter: the number of set bits among the
32 bits of the word (the counter is a `u32`, so always `< 2^32`). -/
def count_ones (n : ℕ) : ℕ :=
  ((Finset.range 32).filter (fun i => n.testBit i)).card

/-- Wrap an integer into `i32` two's-complement range (Rust release-profile
overflow semantics). -/
def i32wrap (z : ℤ) : ℤ := (z + 2 ^ 31) % 2 ^ 32 - 2 ^ 31

/-- Model of `(1..=N as i32).product::<i32>()`: the factorial computed by
repeated `i32` multiplication, each step wrapping modulo `2^32`. -/
def i32prod (N : ℕ) : ℤ :=
  (List.range N).foldl (fun acc k => i32wrap (acc * ((k : ℤ) + 1))) 1

/-- Model of `cdf_irwin_hall` (`world/src/sim/util.rs:32-86`).  Arrays
`[f32; N]` are modelled as functions `ℕ → ℚ` read on indices `< N`.
Iterates over all `2^N` bit patterns `subset`, forming the sign from the
parity of `count_ones` and the clamped power term from the sum of the weights
whose bit is set, then divides by the weight product and by the `i32`
factorial. -/
def cdf_irwin_hall (N : ℕ) (weights samples : ℕ → ℚ) : ℚ :=
  let x : ℚ := ∑ i in Finset.range N, weights i * samples i
  let y : ℚ := ∑ subset in Finset.range (2 ^ N),
    (let k := count_ones subset
     let z := ∑ i in (Finset.range N).filter (fun i => subset.testBit i), weights i
     let z := (max 0 (x - z)) ^ N
     if k &&& 1 = 0 then z else -z)
  (y / ∏ i in Finset.range N, weights i) / ((i32prod N : ℤ) : ℚ)

/-- The claim's closed form, written from the spec's words:
`F(x) = 1 / (A * N!) * Σ_{S ⊆ {1..N}} (-1)^|S| * max(0, x − Σ_{k∈S} a_k)^N`
with `x = Σ a_k u_k`, summed over every subset of the `N` weight indices. -/
def cdf_spec (N : ℕ) (weights samples : ℕ → ℚ) : ℚ :=
  let x : ℚ := ∑ i in Finset.range N, weights i * samples i
  (1 / ((∏ i in Finset.range N, weights i) * (N.factorial : ℚ))) *
    ∑ S in (Finset.range N).powerset,
      (-1 : ℚ) ^ S.card * (max 0 (x - ∑ k in S, weights k)) ^ N

/-- Concrete sampling function for witnesses: on a 2x2 grid, samples
`[3, absent, 1, 3]` (one tie on value, one absent cell). -/
def sampleA : ℕ → Option F32 := fun i =>
  if i = 0 then some (F32.val 3)
  else if i = 1 then none
  else if i = 2 then some (F32.val 1)
  else some (F32.val 3)

/-- Concrete sampling function for witnesses: a NaN sample together with a
second present sample. -/
def sampleB : ℕ → Option F32 := fun i =>
  if i = 0 then some F32.nan else some (F32.val 0)

/-- Concrete sampling function for witnesses: exactly one present sample,
which is NaN. -/
def sampleC : ℕ → Option F32 := fun i =>
  if i = 1 then some F32.nan else none

/-- Concrete sampling function for witnesses: every sample absent. -/
def sampleNone : ℕ → Option F32 := fun _ => none

/-! ## Basic properties of the entry order and the comparator -/

theorem F32.exists_val {v : F32} (h : v ≠ F32.nan) : ∃ q, v = F32.val q := by
  cases v with
  | nan => exact absurd rfl h
  | val q => exact ⟨q, rfl⟩

theorem entryLt_irrefl (a : ℕ × F32) : ¬ entryLt a a := by
  obtain ⟨i, _ | p⟩ := a
  · exact fun h => h
  · rintro (h | ⟨-, h⟩) <;> exact lt_irrefl _ h

theorem entryLt_trans {a b c : ℕ × F32} (h1 : entryLt a b) (h2 : entryLt b c) :
    entryLt a c := by
  obtain ⟨i, _ | p⟩ := a <;> obtain ⟨j, _ | q⟩ := b <;> obtain ⟨k, _ | r⟩ := c <;>
    simp only [entryLt] at h1 h2 ⊢
  rcases h1 with h1 | ⟨rfl, h1⟩ <;> rcases h2 with h2 | ⟨rfl, h2⟩
  · exact Or.inl (lt_trans h1 h2)
  · exact Or.inl h1
  · exact Or.inl h2
  · exact Or.inr ⟨rfl, lt_trans h1 h2⟩

theorem entryLt_asymm {a b : ℕ × F32} (h1 : entryLt a b) : ¬ entryLt b a :=
  fun h2 => entryLt_irrefl a (entryLt_trans h1 h2)

theorem entryLe_trans {a b c : ℕ × F32} (h1 : entryLe a b) (h2 : entryLe b c) :
    entryLe a c := by
  obtain ⟨i, _ | p⟩ := a <;> obtain ⟨j, _ | q⟩ := b <;> obtain ⟨k, _ | r⟩ := c <;>
    simp only [entryLe] at h1 h2 ⊢
  rcases h1 with h1 | ⟨rfl, h1⟩ <;> rcases h2 with h2 | ⟨rfl, h2⟩
  · exact Or.inl (lt_trans h1 h2)
  · exact Or.inl h1
  · exact Or.inl h2
  · exact Or.inr ⟨rfl, le_trans h1 h2⟩

theorem entryLe_of_entryLt {a b : ℕ × F32} (h : entryLt a b) : entryLe a b := by
  obtain ⟨i, _ | p⟩ := a <;> obtain ⟨j, _ | q⟩ := b <;>
    simp only [entryLt, entryLe] at h ⊢
  rcases h with h | ⟨rfl, h⟩
  · exact Or.inl h
  · exact Or.inr ⟨rfl, le_of_lt h⟩

theorem entryLt_of_entryLe_of_ne {a b : ℕ × F32} (h : entryLe a b) (hne : a.1 ≠ b.1) :
    entryLt a b := by
  obtain ⟨i, _ | p⟩ := a <;> obtain ⟨j, _ | q⟩ := b <;>
    simp only [entryLe, entryLt] at h ⊢
  rcases h with h | ⟨rfl, h⟩
  · exact Or.inl h
  · exact Or.inr ⟨rfl, lt_of_le_of_ne h hne⟩

theorem cmpEntry_none_left {a b : ℕ × F32} (h : a.2 = F32.nan) : cmpEntry a b = none := by
  unfold cmpEntry cmpF32
  rw [h]

theorem cmpEntry_none_right {a b : ℕ × F32} (h : b.2 = F32.nan) : cmpEntry a b = none := by
  unfold cmpEntry cmpF32
  rw [h]
  cases a.2 <;> rfl

theorem cmpEntry_isSome {a b : ℕ × F32} (ha : a.2 ≠ F32.nan) (hb : b.2 ≠ F32.nan) :
    cmpEntry a b ≠ none := by
  obtain ⟨p, hp⟩ := F32.exists_val ha
  obtain ⟨q, hq⟩ := F32.exists_val hb
  unfold cmpEntry cmpF32
  rw [hp, hq]
  split <;> simp_all

theorem entryLt_of_cmpEntry_gt {a b : ℕ × F32} (ha : a.2 ≠ F32.nan) (hb : b.2 ≠ F32.nan)
    (h : cmpEntry a b = some Ordering.gt) : entryLt b a := by
  obtain ⟨i, av⟩ := a
  obtain ⟨j, bv⟩ := b
  obtain ⟨p, hp⟩ := F32.exists_val ha
  obtain ⟨q, hq⟩ := F32.exists_val hb
  simp only at hp hq
  subst hp; subst hq
  simp only [cmpEntry, cmpF32] at h
  simp only [entryLt]
  by_cases h1 : p < q
  · simp [h1] at h
  by_cases h2 : q < p
  · exact Or.inl h2
  · have hpq : p = q := le_antisymm (not_lt.mp h2) (not_lt.mp h1)
    simp only [h1, h2, if_false, cmpIdx] at h
    refine Or.inr ⟨hpq.symm, ?_⟩
    by_cases h3 : i < j
    · simp [h3] at h
    by_cases h4 : j < i
    · exact h4
    · simp [h3, h4] at h

theorem entryLe_of_cmpEntry_not_gt {a b : ℕ × F32} (ha : a.2 ≠ F32.nan) (hb : b.2 ≠ F32.nan)
    (h : cmpEntry a b ≠ some Ordering.gt) : entryLe a b := by
  obtain ⟨i, av⟩ := a
  obtain ⟨j, bv⟩ := b
  obtain ⟨p, hp⟩ := F32.exists_val ha
  obtain ⟨q, hq⟩ := F32.exists_val hb
  simp only at hp hq
  subst hp; subst hq
  simp only [cmpEntry, cmpF32] at h
  simp only [entryLe]
  by_cases h1 : p < q
  · exact Or.inl h1
  by_cases h2 : q < p
  · simp [h1, h2] at h
  · have hpq : p = q := le_antisymm (not_lt.mp h2) (not_lt.mp h1)
    simp only [h1, h2, if_false, cmpIdx] at h
    refine Or.inr ⟨hpq, ?_⟩
    by_cases h3 : i < j
    · exact le_of_lt h3
    by_cases h4 : j < i
    · simp [h3, h4] at h
    · exact not_lt.mp h4

/-! ## Correctness of the panicking sort model -/

theorem insertCmp_ok {a : ℕ × F32} {l : List (ℕ × F32)} (ha : a.2 ≠ F32.nan)
    (hl : ∀ e ∈ l, e.2 ≠ F32.nan) (hs : l.Pairwise entryLe) :
    ∃ l', insertCmp a l = some l' ∧ l'.Perm (a :: l) ∧ l'.Pairwise entryLe := by
  induction l with
  | nil => exact ⟨[a], rfl, List.Perm.refl _, List.pairwise_singleton _ _⟩
  | cons b t ih =>
    have hb : b.2 ≠ F32.nan := hl b (List.mem_cons_self b t)
    have ht : ∀ e ∈ t, e.2 ≠ F32.nan := fun e he => hl e (List.mem_cons_of_mem b he)
    have hbt : ∀ e ∈ t, entryLe b e := (List.pairwise_cons.mp hs).1
    have hst : t.Pairwise entryLe := (List.pairwise_cons.mp hs).2
    rcases hc : cmpEntry a b with - | o
    · exact absurd hc (cmpEntry_isSome ha hb)
    cases o with
    | gt =>
      obtain ⟨t', ht', hperm, hsorted⟩ := ih ht hst
      refine ⟨b :: t', ?_, ?_, ?_⟩
      · simp [insertCmp, hc, ht']
      · exact (hperm.cons b).trans (List.Perm.swap a b t)
      · refine List.pairwise_cons.mpr ⟨?_, hsorted⟩
        intro e he
        rcases List.mem_cons.mp (hperm.mem_iff.mp he) with he' | he'
        · subst he'
          exact entryLe_of_entryLt (entryLt_of_cmpEntry_gt ha hb hc)
        · exact hbt e he'
    | lt =>
      refine ⟨a :: b :: t, by simp [insertCmp, hc], List.Perm.refl _, ?_⟩
      refine List.pairwise_cons.mpr ⟨?_, hs⟩
      intro e he
      have hab : entryLe a b := entryLe_of_cmpEntry_not_gt ha hb (by simp [hc])
      rcases List.mem_cons.mp he with rfl | he
      · exact hab
      · exact entryLe_trans hab (hbt e he)
    | eq =>
      refine ⟨a :: b :: t, by simp [insertCmp, hc], List.Perm.refl _, ?_⟩
      refine List.pairwise_cons.mpr ⟨?_, hs⟩
      intro e he
      have hab : entryLe a b := entryLe_of_cmpEntry_not_gt ha hb (by simp [hc])
      rcases List.mem_cons.mp he with rfl | he
      · exact hab
      · exact entryLe_trans hab (hbt e he)

theorem sortByCmp_ok {l : List (ℕ × F32)} (hl : ∀ e ∈ l, e.2 ≠ F32.nan) :
    ∃ s, sortByCmp l = some s ∧ s.Perm l ∧ s.Pairwise entryLe := by
  induction l with
  | nil => exact ⟨[], rfl, List.Perm.refl _, List.Pairwise.nil⟩
  | cons a t ih =>
    have ha : a.2 ≠ F32.nan := hl a (List.mem_cons_self a t)
    have ht : ∀ e ∈ t, e.2 ≠ F32.nan := fun e he => hl e (List.mem_cons_of_mem a he)
    obtain ⟨s, hsort, hperm, hsorted⟩ := ih ht
    have hvs : ∀ e ∈ s, e.2 ≠ F32.nan := fun e he => ht e (hperm.mem_iff.mp he)
    obtain ⟨s', hins, hperm', hsorted'⟩ := insertCmp_ok ha hvs hsorted
    refine ⟨s', ?_, ?_, hsorted'⟩
    · simp [sortByCmp, hsort, hins]
    · exact hperm'.trans (hperm.cons a)

theorem insertCmp_some_length {a : ℕ × F32} {l l' : List (ℕ × F32)}
    (h : insertCmp a l = some l') : l'.length = l.length + 1 := by
  induction l generalizing l' with
  | nil =>
    simp only [insertCmp, Option.some.injEq] at h
    subst h
    rfl
  | cons b t ih =>
    unfold insertCmp at h
    rcases hc : cmpEntry a b with - | o
    · rw [hc] at h
      simp at h
    rw [hc] at h
    cases o with
    | gt =>
      rcases hi : insertCmp a t with - | t'
      · rw [hi] at h
        simp at h
      · rw [hi] at h
        simp only [Option.map_some', Option.some.injEq] at h
        subst h
        simp [ih hi]
    | lt =>
      simp only [Option.some.injEq] at h
      subst h
      simp
    | eq =>
      simp only [Option.some.injEq] at h
      subst h
      simp

theorem sortByCmp_some_length {l s : List (ℕ × F32)} (h : sortByCmp l = some s) :
    s.length = l.length := by
  induction l generalizing s with
  | nil =>
    simp only [sortByCmp, Option.some.injEq] at h
    subst h
    rfl
  | cons a t ih =>
    unfold sortByCmp at h
    rcases ht : sortByCmp t with - | s'
    · rw [ht] at h
      simp at h
    · rw [ht] at h
      simp only [Option.some_bind] at h
      have := insertCmp_some_length h
      simp [this, ih ht]

theorem sortByCmp_none {l : List (ℕ × F32)} (h2 : 2 ≤ l.length)
    (hnan : ∃ e ∈ l, e.2 = F32.nan) : sortByCmp l = none := by
  induction l with
  | nil => simp at h2
  | cons a t ih =>
    have hstep : sortByCmp (a :: t) = (sortByCmp t).bind (insertCmp a) := rfl
    by_cases hat : a.2 = F32.nan
    · have htne : t ≠ [] := by
        intro h
        subst h
        simp at h2
      rcases ht : sortByCmp t with - | s
      · rw [hstep, ht]
        rfl
      · have hs : s ≠ [] := by
          intro h
          subst h
          have hlen := sortByCmp_some_length ht
          simp only [List.length_nil] at hlen
          exact htne (List.length_eq_zero.mp hlen.symm)
        obtain ⟨c, w, rfl⟩ := List.exists_cons_of_ne_nil hs
        rw [hstep, ht]
        simp [insertCmp, cmpEntry_none_left hat]
    · have hnt : ∃ e ∈ t, e.2 = F32.nan := by
        obtain ⟨e, he, hen⟩ := hnan
        rcases List.mem_cons.mp he with rfl | he'
        · exact absurd hen hat
        · exact ⟨e, he', hen⟩
      cases t with
      | nil =>
        obtain ⟨e, he, -⟩ := hnt
        simp at he
      | cons b u =>
        cases u with
        | nil =>
          obtain ⟨e, he, hen⟩ := hnt
          have hb : b.2 = F32.nan := by
            rcases List.mem_cons.mp he with rfl | h
            · exact hen
            · simp at h
          rw [hstep]
          simp [sortByCmp, insertCmp, cmpEntry_none_right hb]
        | cons c w =>
          have hnone := ih (by simp) hnt
          rw [hstep, hnone]
          rfl

/-! ## Counting, ranks and the collected sample list -/

theorem countP_lt_countP {α : Type} {l : List α} {p q : α → Bool}
    (hpq : ∀ e ∈ l, p e = true → q e = true) {a : α} (ha : a ∈ l)
    (hqa : q a = true) (hpa : ¬ p a = true) : l.countP p < l.countP q := by
  induction l with
  | nil => simp at ha
  | cons b t ih =>
    rcases List.mem_cons.mp ha with rfl | ha'
    · rw [List.countP_cons_of_neg _ _ hpa, List.countP_cons_of_pos _ _ hqa]
      exact Nat.lt_succ_of_le (List.countP_mono_left
        (fun e he hp => hpq e (List.mem_cons_of_mem _ he) hp))
    · have hlt : t.countP p < t.countP q :=
        ih (fun e he hp => hpq e (List.mem_cons_of_mem _ he) hp) ha'
      rw [List.countP_cons, List.countP_cons]
      by_cases hpb : p b = true
      · rw [if_pos hpb, if_pos (hpq b (List.mem_cons_self b t) hpb)]
        omega
      · rw [if_neg hpb]
        have : (if q b = true then 1 else 0) ≥ 0 := Nat.zero_le _
        split <;> omega

theorem countP_lt_length {α : Type} {l : List α} {p : α → Bool} {a : α}
    (ha : a ∈ l) (hpa : ¬ p a = true) : l.countP p < l.length := by
  have := @countP_lt_countP α l p (fun _ => true) (fun e _ _ => rfl) a ha rfl hpa
  simpa using this

theorem sorted_countP_get {s : List (ℕ × F32)} (hs : s.Pairwise entryLt) (k : ℕ)
    (hk : k < s.length) :
    s.countP (fun e => decide (entryLt e (s.get ⟨k, hk⟩))) = k := by
  induction s generalizing k with
  | nil => simp at hk
  | cons a t ih =>
    have hat : ∀ e ∈ t, entryLt a e := (List.pairwise_cons.mp hs).1
    have hst : t.Pairwise entryLt := (List.pairwise_cons.mp hs).2
    cases k with
    | zero =>
      apply List.countP_eq_zero.mpr
      intro e he
      rcases List.mem_cons.mp he with rfl | he'
      · simp [entryLt_irrefl]
      · simp only [decide_eq_true_eq]
        exact entryLt_asymm (hat e he')
    | succ k =>
      have hk' : k < t.length := by
        simpa using hk
      have hget : (a :: t).get ⟨k + 1, hk⟩ = t.get ⟨k, hk'⟩ := rfl
      rw [hget, List.countP_cons_of_pos, ih hst k hk']
      simp only [decide_eq_true_eq]
      exact hat _ (List.get_mem t k hk')

theorem pairwise_entryLt {s : List (ℕ × F32)} (h1 : s.Pairwise entryLe)
    (h2 : s.Pairwise (fun a b => a.1 ≠ b.1)) : s.Pairwise entryLt :=
  (h1.and h2).imp (fun h => entryLt_of_entryLe_of_ne h.1 h.2)

theorem mem_noisePairs {n : ℕ} {f : ℕ → Option F32} {p : ℕ × F32} :
    p ∈ noisePairs n f ↔ p.1 < n ∧ f p.1 = some p.2 := by
  unfold noisePairs
  simp only [List.mem_filterMap, List.mem_range, Option.map_eq_some']
  constructor
  · rintro ⟨i, hi, r, hr, rfl⟩
    exact ⟨hi, hr⟩
  · rintro ⟨h1, h2⟩
    exact ⟨p.1, h1, p.2, h2, rfl⟩

theorem noisePairs_pairwise_fst (n : ℕ) (f : ℕ → Option F32) :
    (noisePairs n f).Pairwise (fun a b => a.1 < b.1) := by
  unfold noisePairs
  apply List.pairwise_filterMap.mpr
  refine (List.pairwise_lt_range n).imp ?_
  intro i j hij b hb b' hb'
  simp only [Option.mem_def, Option.map_eq_some'] at hb hb'
  obtain ⟨r, -, rfl⟩ := hb
  obtain ⟨r', -, rfl⟩ := hb'
  exact hij

theorem noisePairs_no_nan {n : ℕ} {f : ℕ → Option F32}
    (hnn : ∀ i < n, f i ≠ some F32.nan) :
    ∀ e ∈ noisePairs n f, e.2 ≠ F32.nan := by
  intro e he hen
  obtain ⟨h1, h2⟩ := mem_noisePairs.mp he
  exact hnn e.1 h1 (hen ▸ h2)

theorem noisePairs_length (n : ℕ) (f : ℕ → Option F32) :
    (noisePairs n f).length = totalCount n f := by
  unfold noisePairs totalCount
  induction (List.range n) with
  | nil => rfl
  | cons a t ih =>
    rcases hfa : f a with - | v
    · simpa [List.filterMap_cons, List.countP_cons, hfa] using ih
    · simpa [List.filterMap_cons, List.countP_cons, hfa] using ih

/-! ## The write-back loop -/

theorem writeRanks_cons (total : ℚ) (a : ℕ × (ℕ × F32)) (es : List (ℕ × (ℕ × F32)))
    (init : List (ℚ × F32)) :
    writeRanks total (a :: es) init =
      writeRanks total es (init.set a.2.1 (((1 + a.1 : ℕ) : ℚ) / total, a.2.2)) := rfl

theorem writeRanks_length (total : ℚ) (es : List (ℕ × (ℕ × F32))) (init : List (ℚ × F32)) :
    (writeRanks total es init).length = init.length := by
  induction es generalizing init with
  | nil => rfl
  | cons a t ih =>
    rw [writeRanks_cons, ih]
    simp

theorem writeRanks_skip {total : ℚ} {es : List (ℕ × (ℕ × F32))} {init : List (ℚ × F32)}
    {j : ℕ} (h : ∀ e ∈ es, e.2.1 ≠ j) :
    (writeRanks total es init)[j]? = init[j]? := by
  induction es generalizing init with
  | nil => rfl
  | cons a t ih =>
    rw [writeRanks_cons, ih (fun e he => h e (List.mem_cons_of_mem a he))]
    exact List.getElem?_set_ne (h a (List.mem_cons_self a t))

theorem writeRanks_hit (total : ℚ) (es : List (ℕ × (ℕ × F32))) (init : List (ℚ × F32))
    (hkeys : es.Pairwise (fun e e' => e.2.1 ≠ e'.2.1)) {e : ℕ × (ℕ × F32)} (he : e ∈ es)
    (hlt : e.2.1 < init.length) :
    (writeRanks total es init)[e.2.1]? = some (((1 + e.1 : ℕ) : ℚ) / total, e.2.2) := by
  induction es generalizing init with
  | nil => simp at he
  | cons a t ih =>
    have hhead : ∀ e' ∈ t, a.2.1 ≠ e'.2.1 := (List.pairwise_cons.mp hkeys).1
    have htail := (List.pairwise_cons.mp hkeys).2
    rw [writeRanks_cons]
    rcases List.mem_cons.mp he with rfl | he'
    · rw [writeRanks_skip (fun e' he'2 => (hhead e' he'2).symm)]
      exact List.getElem?_set_self hlt
    · exact ih _ htail he' (by simpa using hlt)

theorem enum_pairwise {α : Type} {R : α → α → Prop} {l : List α} (h : l.Pairwise R) :
    l.enum.Pairwise (fun a b => R a.2 b.2) := by
  rw [List.pairwise_iff_getElem] at h ⊢
  intro i j hi hj hij
  rw [List.getElem_enum, List.getElem_enum]
  exact h i j (by simpa using hi) (by simpa using hj) hij

/-! ## Master evaluation of `uniform_noise` under the no-NaN contract -/

theorem uniform_noise_master {wx wy : ℕ} {f : ℕ → Option F32}
    (hnn : ∀ i < wx * wy, f i ≠ some F32.nan) :
    ∃ s, sortByCmp (noisePairs (wx * wy) f) = some s ∧
      s.Perm (noisePairs (wx * wy) f) ∧
      s.Pairwise entryLt ∧
      s.length = totalCount (wx * wy) f ∧
      uniform_noise wx wy f = some ((List.range (wx * wy)).map (fun i =>
        match f i with
        | none => ((0 : ℚ), F32.val 0)
        | some v =>
            ((rank (wx * wy) f i v : ℚ) / (totalCount (wx * wy) f : ℚ), v))) := by
  have hv : ∀ e ∈ noisePairs (wx * wy) f, e.2 ≠ F32.nan := noisePairs_no_nan hnn
  obtain ⟨s, hsort, hperm, hsorted⟩ := sortByCmp_ok hv
  have hfstlt : (noisePairs (wx * wy) f).Pairwise (fun a b => a.1 < b.1) :=
    noisePairs_pairwise_fst (wx * wy) f
  have hfst : (noisePairs (wx * wy) f).Pairwise (fun a b => a.1 ≠ b.1) :=
    hfstlt.imp (fun h => Nat.ne_of_lt h)
  have hfsts : s.Pairwise (fun a b => a.1 ≠ b.1) :=
    (List.Perm.pairwise_iff (fun h => Ne.symm h) hperm).mpr hfst
  have hslt : s.Pairwise entryLt := pairwise_entryLt hsorted hfsts
  have hlen : s.length = totalCount (wx * wy) f :=
    hperm.length_eq.trans (noisePairs_length (wx * wy) f)
  refine ⟨s, hsort, hperm, hslt, hlen, ?_⟩
  unfold uniform_noise
  rw [hsort, Option.map_some']
  congr 1
  apply List.ext_getElem?
  intro j
  by_cases hj : j < wx * wy
  · rw [List.getElem?_map, List.getElem?_range hj, Option.map_some']
    rcases hfj : f j with - | v
    · have hskip : ∀ e ∈ s.enum, e.2.1 ≠ j := by
        intro e he hej
        have hmem : e.2 ∈ s := List.snd_mem_of_mem_enum he
        have := (mem_noisePairs.mp (hperm.mem_iff.mp hmem)).2
        rw [hej, hfj] at this
        exact Option.noConfusion this
      rw [writeRanks_skip hskip, List.getElem?_replicate_of_lt hj]
    · have hjv : (j, v) ∈ s := hperm.mem_iff.mpr (mem_noisePairs.mpr ⟨hj, hfj⟩)
      obtain ⟨⟨k, hk⟩, hget⟩ := List.mem_iff_get.mp hjv
      have henum : (k, (j, v)) ∈ s.enum := by
        rw [List.mem_enum_iff_getElem?]
        show s[k]? = some (j, v)
        rw [List.getElem?_eq_getElem hk]
        exact congrArg some hget
      have hkeys : s.enum.Pairwise (fun e e' : ℕ × (ℕ × F32) => e.2.1 ≠ e'.2.1) :=
        enum_pairwise hfsts
      have hhit := writeRanks_hit ((s.length : ℚ)) s.enum
        (List.replicate (wx * wy) ((0 : ℚ), F32.val 0)) hkeys henum
        (by simpa using hj)
      simp only at hhit
      rw [hhit]
      have hrank : rank (wx * wy) f j v = 1 + k := by
        unfold rank
        rw [← hperm.countP_eq]
        have := sorted_countP_get hslt k hk
        rw [hget] at this
        rw [this]
      show some (((1 + k : ℕ) : ℚ) / (s.length : ℚ), v) =
        some ((rank (wx * wy) f j v : ℚ) / (totalCount (wx * wy) f : ℚ), v)
      rw [hrank, hlen]
  · have hlhs : (writeRanks (s.length : ℚ) s.enum
        (List.replicate (wx * wy) ((0 : ℚ), F32.val 0))).length = wx * wy := by
      rw [writeRanks_length]
      simp
    rw [List.getElem?_eq_none (by rw [hlhs]; omega),
      List.getElem?_eq_none (by simp; omega)]

/-! ## Helper facts about ranks and totals -/

theorem totalCount_pos {n : ℕ} {f : ℕ → Option F32} {c : ℕ} {v : F32}
    (hc : c < n) (hfc : f c = some v) : 0 < totalCount n f := by
  rw [← noisePairs_length]
  have ha : (c, v) ∈ noisePairs n f := mem_noisePairs.mpr ⟨hc, hfc⟩
  exact List.length_pos_of_mem ha

theorem rank_lt_rank {n : ℕ} {f : ℕ → Option F32} {c1 c2 : ℕ} {q1 q2 : ℚ}
    (h1 : c1 < n) (hf1 : f c1 = some (F32.val q1))
    (hlt : entryLt (c1, F32.val q1) (c2, F32.val q2)) :
    rank n f c1 (F32.val q1) < rank n f c2 (F32.val q2) := by
  unfold rank
  have hpq : ∀ e ∈ noisePairs n f,
      decide (entryLt e (c1, F32.val q1)) = true →
      decide (entryLt e (c2, F32.val q2)) = true := by
    intro e he hp
    simp only [decide_eq_true_eq] at hp ⊢
    exact entryLt_trans hp hlt
  have ha : (c1, F32.val q1) ∈ noisePairs n f := mem_noisePairs.mpr ⟨h1, hf1⟩
  have hqa : decide (entryLt (c1, F32.val q1) (c2, F32.val q2)) = true := by
    simp only [decide_eq_true_eq]
    exact hlt
  have hpa : ¬ decide (entryLt (c1, F32.val q1) (c1, F32.val q1)) = true := by
    simp only [decide_eq_true_eq]
    exact entryLt_irrefl _
  have := countP_lt_countP hpq ha hqa hpa
  omega

theorem rank_le_totalCount {n : ℕ} {f : ℕ → Option F32} {c : ℕ} {v : F32}
    (hc : c < n) (hfc : f c = some v) : rank n f c v ≤ totalCount n f := by
  unfold rank
  rw [← noisePairs_length]
  have ha : (c, v) ∈ noisePairs n f := mem_noisePairs.mpr ⟨hc, hfc⟩
  have hpa : ¬ decide (entryLt (c, v) (c, v)) = true := by
    simp only [decide_eq_true_eq]
    exact entryLt_irrefl _
  have := @countP_lt_length (ℕ × F32) (noisePairs n f)
    (fun e => decide (entryLt e (c, v))) (c, v) ha hpa
  omega

/-! ## Subset enumeration: bit patterns below `2^N` vs subsets of `{0..N-1}` -/

theorem bits_filter_eq_of_lt {N t : ℕ} (ht : t < 2 ^ N) :
    (Finset.range (N + 1)).filter (fun i => t.testBit i) =
    (Finset.range N).filter (fun i => t.testBit i) := by
  rw [Finset.range_succ, Finset.filter_insert, Nat.testBit_lt_two_pow ht]
  simp

theorem bits_filter_add_pow {N t : ℕ} (ht : t < 2 ^ N) :
    (Finset.range (N + 1)).filter (fun i => (2 ^ N + t).testBit i) =
    insert N ((Finset.range N).filter (fun i => t.testBit i)) := by
  rw [Finset.range_succ, Finset.filter_insert]
  have hN : (2 ^ N + t).testBit N = true := by
    rw [Nat.testBit_two_pow_add_eq, Nat.testBit_lt_two_pow ht]
    rfl
  rw [hN]
  simp only [if_true]
  congr 1
  apply Finset.filter_congr
  intro i hi
  rw [Finset.mem_range] at hi
  simp [Nat.testBit_two_pow_add_gt hi]

theorem count_ones_eq_card {N t : ℕ} (hN : N ≤ 32) (ht : t < 2 ^ N) :
    count_ones t = ((Finset.range N).filter (fun i => t.testBit i)).card := by
  unfold count_ones
  congr 1
  apply Finset.ext
  intro i
  simp only [Finset.mem_filter, Finset.mem_range]
  constructor
  · rintro ⟨-, hbit⟩
    refine ⟨?_, hbit⟩
    by_contra hge
    push_neg at hge
    have hlt : t < 2 ^ i :=
      lt_of_lt_of_le ht (Nat.pow_le_pow_right (by norm_num) hge)
    rw [Nat.testBit_lt_two_pow hlt] at hbit
    exact Bool.noConfusion hbit
  · rintro ⟨hiN, hbit⟩
    exact ⟨lt_of_lt_of_le hiN hN, hbit⟩

theorem sum_bits_eq_sum_powerset (N : ℕ) (F : Finset ℕ → ℚ) :
    ∑ t in Finset.range (2 ^ N), F ((Finset.range N).filter (fun i => t.testBit i)) =
    ∑ S in (Finset.range N).powerset, F S := by
  induction N generalizing F with
  | zero => simp
  | succ N ih =>
    rw [pow_succ, mul_two, Finset.sum_range_add]
    have h1 : ∀ t ∈ Finset.range (2 ^ N),
        F ((Finset.range (N + 1)).filter (fun i => t.testBit i)) =
        F ((Finset.range N).filter (fun i => t.testBit i)) := by
      intro t ht
      rw [bits_filter_eq_of_lt (Finset.mem_range.mp ht)]
    have h2 : ∀ t ∈ Finset.range (2 ^ N),
        F ((Finset.range (N + 1)).filter (fun i => (2 ^ N + t).testBit i)) =
        F (insert N ((Finset.range N).filter (fun i => t.testBit i))) := by
      intro t ht
      rw [bits_filter_add_pow (Finset.mem_range.mp ht)]
    rw [Finset.sum_congr rfl h1, Finset.sum_congr rfl h2, ih F,
      ih (fun S => F (insert N S))]
    have hdisj : Disjoint ((Finset.range N).powerset)
        (((Finset.range N).powerset).image (insert N)) := by
      rw [Finset.disjoint_left]
      intro S hS hS'
      rw [Finset.mem_powerset] at hS
      rw [Finset.mem_image] at hS'
      obtain ⟨S', -, rfl⟩ := hS'
      have : N ∈ Finset.range N := hS (Finset.mem_insert_self N S')
      exact absurd this (by simp)
    have hinj : ∀ S1 ∈ (Finset.range N).powerset, ∀ S2 ∈ (Finset.range N).powerset,
        insert N S1 = insert N S2 → S1 = S2 := by
      intro S1 hS1 S2 hS2 he
      rw [Finset.mem_powerset] at hS1 hS2
      have hn1 : N ∉ S1 := fun h => absurd (hS1 h) (by simp)
      have hn2 : N ∉ S2 := fun h => absurd (hS2 h) (by simp)
      rw [← Finset.erase_insert hn1, ← Finset.erase_insert hn2, he]
    rw [Finset.range_succ, Finset.powerset_insert, Finset.sum_union hdisj,
      Finset.sum_image hinj]

/-! ## Sign, factorial and the CDF refinement -/

theorem sign_term_eq (k : ℕ) (z : ℚ) :
    (if k &&& 1 = 0 then z else -z) = (-1 : ℚ) ^ k * z := by
  rcases Nat.even_or_odd k with he | ho
  · rw [if_pos (by rw [Nat.and_one_is_mod]; exact Nat.even_iff.mp he),
      Even.neg_one_pow he, one_mul]
  · rw [if_neg (by rw [Nat.and_one_is_mod, Nat.odd_iff.mp ho]; norm_num),
      Odd.neg_one_pow ho, neg_one_mul]

theorem i32prod_eq_factorial {N : ℕ} (h : N ≤ 12) : i32prod N = (N.factorial : ℤ) := by
  interval_cases N <;> decide

theorem cdf_code_sum_eq (N : ℕ) (hN : N ≤ 32) (weights : ℕ → ℚ) (x : ℚ) :
    (∑ t in Finset.range (2 ^ N),
      (let k := count_ones t
       let z := ∑ i in (Finset.range N).filter (fun i => t.testBit i), weights i
       let z := (max 0 (x - z)) ^ N
       if k &&& 1 = 0 then z else -z)) =
    ∑ S in (Finset.range N).powerset,
      (-1 : ℚ) ^ S.card * (max 0 (x - ∑ k in S, weights k)) ^ N := by
  rw [← sum_bits_eq_sum_powerset N
    (fun S => (-1 : ℚ) ^ S.card * (max 0 (x - ∑ k in S, weights k)) ^ N)]
  apply Finset.sum_congr rfl
  intro t ht
  show (if count_ones t &&& 1 = 0
      then (max 0 (x - ∑ i in (Finset.range N).filter (fun i => t.testBit i), weights i)) ^ N
      else -(max 0 (x - ∑ i in (Finset.range N).filter (fun i => t.testBit i), weights i)) ^ N) = _
  rw [sign_term_eq, count_ones_eq_card hN (Finset.mem_range.mp ht)]

/-! ## Evaluation of the CDF when the realized sum is below every weight -/

theorem exists_testBit_lt {N t : ℕ} (ht : t < 2 ^ N) (hne : t ≠ 0) :
    ∃ j < N, t.testBit j = true := by
  obtain ⟨j, hj⟩ := Nat.ne_zero_implies_bit_true hne
  refine ⟨j, ?_, hj⟩
  by_contra hge
  push_neg at hge
  have hlt : t < 2 ^ j :=
    lt_of_lt_of_le ht (Nat.pow_le_pow_right (by norm_num) hge)
  rw [Nat.testBit_lt_two_pow hlt] at hj
  exact Bool.noConfusion hj

theorem cdf_irwin_hall_small_x (N : ℕ) (h1 : 1 ≤ N) (hN : N ≤ 32)
    (weights samples : ℕ → ℚ)
    (hx0 : 0 ≤ ∑ i in Finset.range N, weights i * samples i)
    (hw : ∀ i < N, (∑ j in Finset.range N, weights j * samples j) ≤ weights i)
    (hwpos : ∀ i < N, 0 ≤ weights i) :
    cdf_irwin_hall N weights samples =
      ((∑ i in Finset.range N, weights i * samples i) ^ N /
        ∏ i in Finset.range N, weights i) / ((i32prod N : ℤ) : ℚ) := by
  show (∑ subset in Finset.range (2 ^ N),
      (let k := count_ones subset
       let z := ∑ i in (Finset.range N).filter (fun i => subset.testBit i), weights i
       let z := (max 0 ((∑ i in Finset.range N, weights i * samples i) - z)) ^ N
       if k &&& 1 = 0 then z else -z)) / (∏ i in Finset.range N, weights i) /
      ((i32prod N : ℤ) : ℚ) =
    ((∑ i in Finset.range N, weights i * samples i) ^ N /
      ∏ i in Finset.range N, weights i) / ((i32prod N : ℤ) : ℚ)
  congr 2
  rw [Finset.sum_eq_single_of_mem 0 (Finset.mem_range.mpr (Nat.pos_pow_of_pos N (by norm_num)))]
  · show (if count_ones 0 &&& 1 = 0
        then (max 0 ((∑ i in Finset.range N, weights i * samples i) -
          ∑ i in (Finset.range N).filter (fun i => Nat.testBit 0 i), weights i)) ^ N
        else -(max 0 _) ^ N) = _
    have hz : (Finset.range N).filter (fun i => Nat.testBit 0 i) = ∅ := by
      simp [Nat.zero_testBit]
    rw [hz]
    have hco : count_ones 0 &&& 1 = 0 := by decide
    rw [if_pos hco]
    rw [Finset.sum_empty, sub_zero, max_eq_right hx0]
  · intro t ht hne
    show (if count_ones t &&& 1 = 0
        then (max 0 ((∑ i in Finset.range N, weights i * samples i) -
          ∑ i in (Finset.range N).filter (fun i => t.testBit i), weights i)) ^ N
        else -(max 0 _) ^ N) = 0
    obtain ⟨j, hjN, hjbit⟩ := exists_testBit_lt (Finset.mem_range.mp ht) hne
    have hjmem : j ∈ (Finset.range N).filter (fun i => t.testBit i) := by
      simp [Finset.mem_filter, Finset.mem_range, hjN, hjbit]
    have hsum : weights j ≤ ∑ i in (Finset.range N).filter (fun i => t.testBit i), weights i := by
      apply Finset.single_le_sum
      · intro i hi
        exact hwpos i (Finset.mem_range.mp (Finset.mem_filter.mp hi).1)
      · exact hjmem
    have hle : (∑ i in Finset.range N, weights i * samples i) -
        (∑ i in (Finset.range N).filter (fun i => t.testBit i), weights i) ≤ 0 := by
      have := le_trans (hw j hjN) hsum
      linarith
    rw [max_eq_left hle, zero_pow (by omega : N ≠ 0)]
    split <;> simp

theorem cdf_spec_small_x (N : ℕ) (h1 : 1 ≤ N) (weights samples : ℕ → ℚ)
    (hx0 : 0 ≤ ∑ i in Finset.range N, weights i * samples i)
    (hw : ∀ i < N, (∑ j in Finset.range N, weights j * samples j) ≤ weights i)
    (hwpos : ∀ i < N, 0 ≤ weights i) :
    cdf_spec N weights samples =
      (1 / ((∏ i in Finset.range N, weights i) * (N.factorial : ℚ))) *
        (∑ i in Finset.range N, weights i * samples i) ^ N := by
  simp only [cdf_spec]
  congr 1
  rw [Finset.sum_eq_single_of_mem ∅ (Finset.empty_mem_powerset _)]
  · simp [max_eq_right hx0]
  · intro S hS hne
    obtain ⟨j, hj⟩ := Finset.nonempty_iff_ne_empty.mpr hne
    have hjN : j < N := Finset.mem_range.mp (Finset.mem_powerset.mp hS hj)
    have hsum : weights j ≤ ∑ k in S, weights k := by
      apply Finset.single_le_sum
      · intro i hi
        exact hwpos i (Finset.mem_range.mp (Finset.mem_powerset.mp hS hi))
      · exact hj
    have hle : (∑ i in Finset.range N, weights i * samples i) - (∑ k in S, weights k) ≤ 0 := by
      have := le_trans (hw j hjN) hsum
      linarith
    rw [max_eq_left hle, zero_pow (by omega : N ≠ 0), mul_zero]

/-! ## Grid index arithmetic -/

theorem i32_of_usize_small {m : ℕ} (h : m < 2 ^ 31) : i32_of_usize m = (m : ℤ) := by
  unfold i32_of_usize
  rw [Nat.mod_eq_of_lt (by omega)]
  rw [if_pos h]

/-- C3: over the valid domains (in-bounds coordinates, in-bounds flat index,
grid small enough that no machine-integer cast wraps), `uniform_idx_as_vec2`
and `vec2_as_uniform_idx` are mutual inverses, in exact integer arithmetic. -/
theorem grid_index_roundtrip (wx wy : ℕ) (hwx : 0 < wx) (hwy : 0 < wy)
    (hsize : wx * wy ≤ 2 ^ 31) :
    (∀ x y : ℤ, 0 ≤ x → x < (wx : ℤ) → 0 ≤ y → y < (wy : ℤ) →
      uniform_idx_as_vec2 wx (vec2_as_uniform_idx wx (x, y)) = (x, y)) ∧
    (∀ i : ℕ, i < wx * wy →
      vec2_as_uniform_idx wx (uniform_idx_as_vec2 wx i) = i) := by
  have hwx31 : wx ≤ 2 ^ 31 := by
    calc wx = wx * 1 := (mul_one wx).symm
    _ ≤ wx * wy := Nat.mul_le_mul_left wx hwy
    _ ≤ 2 ^ 31 := hsize
  have hwy31 : wy ≤ 2 ^ 31 := by
    calc wy = 1 * wy := (one_mul wy).symm
    _ ≤ wx * wy := Nat.mul_le_mul_right wy hwx
    _ ≤ 2 ^ 31 := hsize
  constructor
  · intro x y hx0 hxw hy0 hyw
    have hax : ((x.toNat : ℤ)) = x := Int.toNat_of_nonneg hx0
    have hby : ((y.toNat : ℤ)) = y := Int.toNat_of_nonneg hy0
    have haw : x.toNat < wx := by omega
    have hbw : y.toNat < wy := by omega
    have hu1 : usize_of_i32 x = x.toNat := by
      unfold usize_of_i32
      rw [Int.emod_eq_of_lt hx0 (by omega : x < 2 ^ 64)]
    have hu2 : usize_of_i32 y = y.toNat := by
      unfold usize_of_i32
      rw [Int.emod_eq_of_lt hy0 (by omega : y < 2 ^ 64)]
    have hlt : y.toNat * wx + x.toNat < wx * wy := by
      have h1 : y.toNat * wx + x.toNat < (y.toNat + 1) * wx := by
        have : (y.toNat + 1) * wx = y.toNat * wx + wx := by ring
        omega
      have h2 : (y.toNat + 1) * wx ≤ wy * wx := Nat.mul_le_mul_right wx (by omega)
      have h3 : wy * wx = wx * wy := mul_comm wy wx
      omega
    have hidx : vec2_as_uniform_idx wx (x, y) = y.toNat * wx + x.toNat := by
      unfold vec2_as_uniform_idx
      simp only
      rw [hu1, hu2]
      exact Nat.mod_eq_of_lt (by omega)
    rw [hidx]
    unfold uniform_idx_as_vec2
    have hmod : (y.toNat * wx + x.toNat) % wx = x.toNat := by
      rw [add_comm, Nat.add_mul_mod_self_right, Nat.mod_eq_of_lt haw]
    have hdiv : (y.toNat * wx + x.toNat) / wx = y.toNat := by
      rw [add_comm, Nat.add_mul_div_right x.toNat y.toNat hwx, Nat.div_eq_of_lt haw,
        zero_add]
    rw [hmod, hdiv, i32_of_usize_small (by omega), i32_of_usize_small (by omega),
      hax, hby]
  · intro i hi
    have h1 : i % wx < wx := Nat.mod_lt i hwx
    have h2 : i / wx ≤ i := Nat.div_le_self i wx
    unfold uniform_idx_as_vec2
    rw [i32_of_usize_small (by omega : i % wx < 2 ^ 31),
      i32_of_usize_small (by omega : i / wx < 2 ^ 31)]
    unfold vec2_as_uniform_idx usize_of_i32
    simp only
    rw [Int.emod_eq_of_lt (by positivity) (by omega : ((i / wx : ℕ) : ℤ) < 2 ^ 64),
      Int.emod_eq_of_lt (by positivity) (by omega : ((i % wx : ℕ) : ℤ) < 2 ^ 64),
      Int.toNat_natCast, Int.toNat_natCast]
    have hdm : i / wx * wx + i % wx = i := by
      rw [mul_comm]
      exact Nat.div_add_mod i wx
    rw [hdm]
    exact Nat.mod_eq_of_lt (by omega)

/-- Witness for C3 at the real Veloren world size (1024 × 1024) and concrete
coordinates/index. -/
theorem grid_index_roundtrip_witness :
    uniform_idx_as_vec2 1024 (vec2_as_uniform_idx 1024 (3, 7)) = (3, 7) ∧
    vec2_as_uniform_idx 1024 (uniform_idx_as_vec2 1024 123456) = 123456 :=
  ⟨(grid_index_roundtrip 1024 1024 (by norm_num) (by norm_num) (by norm_num)).1
      3 7 (by norm_num) (by norm_num) (by norm_num) (by norm_num),
    (grid_index_roundtrip 1024 1024 (by norm_num) (by norm_num) (by norm_num)).2
      123456 (by norm_num)⟩

/-! ## Claim theorems: the uniformization transform -/

/-- C1: for every sampling function respecting the no-NaN contract,
`uniform_noise` returns a grid of length `wx * wy` in which every cell whose
sample is absent holds exactly `(0.0, 0.0)`, and every cell `i` with present
sample `v` holds `(r_i / total_count, v)`, where `total_count` is the number
of present samples and `r_i` the 1-based position of `(v, i)` in the
ascending sort of all present `(value, index)` pairs (value first, flat index
as secondary key). -/
theorem uniform_noise_rank_spec (wx wy : ℕ) (f : ℕ → Option F32)
    (hnn : ∀ i < wx * wy, f i ≠ some F32.nan) :
    ∃ g, uniform_noise wx wy f = some g ∧ g.length = wx * wy ∧
      g = (List.range (wx * wy)).map (fun i =>
        match f i with
        | none => ((0 : ℚ), F32.val 0)
        | some v =>
            ((rank (wx * wy) f i v : ℚ) / (totalCount (wx * wy) f : ℚ), v)) := by
  obtain ⟨s, -, -, -, -, heq⟩ := uniform_noise_master hnn
  exact ⟨_, heq, by simp, rfl⟩

/-- Witness for C1 on a concrete 2x2 grid with samples `[3, absent, 1, 3]`. -/
theorem uniform_noise_rank_spec_witness :
    (∀ i < 2 * 2, sampleA i ≠ some F32.nan) ∧
    ∃ g, uniform_noise 2 2 sampleA = some g ∧ g.length = 2 * 2 ∧
      g = (List.range (2 * 2)).map (fun i =>
        match sampleA i with
        | none => ((0 : ℚ), F32.val 0)
        | some v =>
            ((rank (2 * 2) sampleA i v : ℚ) / (totalCount (2 * 2) sampleA : ℚ), v)) :=
  ⟨by decide, uniform_noise_rank_spec 2 2 sampleA (by decide)⟩

/-- C4: rank monotonicity: between two present cells, a strictly smaller
sample gets a strictly smaller fraction; on a value tie the lower flat index
gets the strictly smaller fraction; and re-running `uniform_noise` on the
same sampling function yields the identical result (the model is a pure
function). -/
theorem uniform_noise_monotone (wx wy : ℕ) (f : ℕ → Option F32)
    (hnn : ∀ i < wx * wy, f i ≠ some F32.nan) (c1 c2 : ℕ) (q1 q2 : ℚ)
    (h1 : c1 < wx * wy) (h2 : c2 < wx * wy)
    (hf1 : f c1 = some (F32.val q1)) (hf2 : f c2 = some (F32.val q2)) :
    ∃ g fr1 fr2, uniform_noise wx wy f = some g ∧
      g[c1]? = some (fr1, F32.val q1) ∧ g[c2]? = some (fr2, F32.val q2) ∧
      (q1 < q2 → fr1 < fr2) ∧ (q1 = q2 → c1 < c2 → fr1 < fr2) ∧
      uniform_noise wx wy f = uniform_noise wx wy f := by
  obtain ⟨s, -, -, -, -, heq⟩ := uniform_noise_master hnn
  have htot : (0 : ℚ) < (totalCount (wx * wy) f : ℚ) := by
    exact_mod_cast totalCount_pos h1 hf1
  refine ⟨_, (rank (wx * wy) f c1 (F32.val q1) : ℚ) / (totalCount (wx * wy) f : ℚ),
    (rank (wx * wy) f c2 (F32.val q2) : ℚ) / (totalCount (wx * wy) f : ℚ),
    heq, ?_, ?_, ?_, ?_, rfl⟩
  · rw [List.getElem?_map, List.getElem?_range h1, Option.map_some', hf1]
  · rw [List.getElem?_map, List.getElem?_range h2, Option.map_some', hf2]
  · intro hq
    have hlt : entryLt (c1, F32.val q1) (c2, F32.val q2) := Or.inl hq
    rw [div_lt_div_iff_of_pos_right htot]
    exact_mod_cast rank_lt_rank h1 hf1 hlt
  · intro hq hc
    have hlt : entryLt (c1, F32.val q1) (c2, F32.val q2) := Or.inr ⟨hq, hc⟩
    rw [div_lt_div_iff_of_pos_right htot]
    exact_mod_cast rank_lt_rank h1 hf1 hlt

/-- Witness for C4 on the concrete 2x2 grid: cell 2 (value 1) vs cell 0
(value 3). -/
theorem uniform_noise_monotone_witness :
    ((∀ i < 2 * 2, sampleA i ≠ some F32.nan) ∧ 2 < 2 * 2 ∧ 0 < 2 * 2 ∧
      sampleA 2 = some (F32.val 1) ∧ sampleA 0 = some (F32.val 3)) ∧
    ∃ g fr1 fr2, uniform_noise 2 2 sampleA = some g ∧
      g[2]? = some (fr1, F32.val 1) ∧ g[0]? = some (fr2, F32.val 3) ∧
      ((1 : ℚ) < 3 → fr1 < fr2) ∧ ((1 : ℚ) = 3 → 2 < 0 → fr1 < fr2) ∧
      uniform_noise 2 2 sampleA = uniform_noise 2 2 sampleA :=
  ⟨⟨by decide, by decide, by decide, by decide, by decide⟩,
    uniform_noise_monotone 2 2 sampleA (by decide) 2 0 1 3 (by decide) (by decide)
      (by decide) (by decide)⟩

/-- C6: with at least one present sample, every present cell's fraction lies
in `(0, 1]`; the minimum present fraction is attained and equals exactly
`1 / total_count`; the maximum present fraction is attained and equals
exactly `1`. -/
theorem uniform_noise_range_spec (wx wy : ℕ) (f : ℕ → Option F32)
    (hnn : ∀ i < wx * wy, f i ≠ some F32.nan)
    (hpres : ∃ c, c < wx * wy ∧ (f c).isSome) :
    ∃ g, uniform_noise wx wy f = some g ∧
      (∀ i q, i < wx * wy → f i = some (F32.val q) →
        ∃ fr, g[i]? = some (fr, F32.val q) ∧ 0 < fr ∧ fr ≤ 1 ∧
          1 / (totalCount (wx * wy) f : ℚ) ≤ fr) ∧
      (∃ i q fr, i < wx * wy ∧ f i = some (F32.val q) ∧
        g[i]? = some (fr, F32.val q) ∧ fr = 1 / (totalCount (wx * wy) f : ℚ)) ∧
      (∃ i q fr, i < wx * wy ∧ f i = some (F32.val q) ∧
        g[i]? = some (fr, F32.val q) ∧ fr = 1) := by
  obtain ⟨s, hsort, hperm, hslt, hlen, heq⟩ := uniform_noise_master hnn
  obtain ⟨c0, hc0, hfc0⟩ := hpres
  rcases ho : f c0 with - | v0
  · rw [ho] at hfc0
    exact absurd hfc0 (by simp)
  have htotn : 0 < totalCount (wx * wy) f := totalCount_pos hc0 ho
  have htot : (0 : ℚ) < (totalCount (wx * wy) f : ℚ) := by exact_mod_cast htotn
  have hcell : ∀ i q, i < wx * wy → f i = some (F32.val q) →
      ((List.range (wx * wy)).map (fun i =>
        match f i with
        | none => ((0 : ℚ), F32.val 0)
        | some v =>
            ((rank (wx * wy) f i v : ℚ) / (totalCount (wx * wy) f : ℚ), v)))[i]? =
      some ((rank (wx * wy) f i (F32.val q) : ℚ) / (totalCount (wx * wy) f : ℚ),
        F32.val q) := by
    intro i q hi hfi
    rw [List.getElem?_map, List.getElem?_range hi, Option.map_some', hfi]
  refine ⟨_, heq, ?_, ?_, ?_⟩
  · intro i q hi hfi
    refine ⟨_, hcell i q hi hfi, ?_, ?_, ?_⟩
    · apply div_pos _ htot
      have : 0 < rank (wx * wy) f i (F32.val q) := by
        unfold rank
        omega
      exact_mod_cast this
    · rw [div_le_one htot]
      exact_mod_cast rank_le_totalCount hi hfi
    · rw [div_le_div_iff_of_pos_right htot]
      have : 1 ≤ rank (wx * wy) f i (F32.val q) := by
        unfold rank
        omega
      exact_mod_cast this
  · -- minimum attained: the first entry of the sorted list has rank 1
    have hslen : 0 < s.length := by omega
    have he : s.get ⟨0, hslen⟩ ∈ s := List.get_mem s 0 hslen
    obtain ⟨hi, hfi⟩ := mem_noisePairs.mp (hperm.mem_iff.mp he)
    obtain ⟨q, hq⟩ := F32.exists_val
      (noisePairs_no_nan hnn _ (hperm.mem_iff.mp he))
    have hrank : rank (wx * wy) f (s.get ⟨0, hslen⟩).1 (s.get ⟨0, hslen⟩).2 = 1 := by
      unfold rank
      rw [← hperm.countP_eq, sorted_countP_get hslt 0 hslen]
    refine ⟨(s.get ⟨0, hslen⟩).1, q, _, hi, by rw [← hq]; exact hfi,
      hcell _ q hi (by rw [← hq]; exact hfi), ?_⟩
    rw [← hq, hrank]
    norm_num
  · -- maximum attained: the last entry of the sorted list has rank total
    have hslen : 0 < s.length := by omega
    have hklt : s.length - 1 < s.length := by omega
    have he : s.get ⟨s.length - 1, hklt⟩ ∈ s := List.get_mem s (s.length - 1) hklt
    obtain ⟨hi, hfi⟩ := mem_noisePairs.mp (hperm.mem_iff.mp he)
    obtain ⟨q, hq⟩ := F32.exists_val
      (noisePairs_no_nan hnn _ (hperm.mem_iff.mp he))
    have hrank : rank (wx * wy) f (s.get ⟨s.length - 1, hklt⟩).1
        (s.get ⟨s.length - 1, hklt⟩).2 = totalCount (wx * wy) f := by
      unfold rank
      rw [← hperm.countP_eq, sorted_countP_get hslt (s.length - 1) hklt]
      omega
    refine ⟨(s.get ⟨s.length - 1, hklt⟩).1, q, _, hi, by rw [← hq]; exact hfi,
      hcell _ q hi (by rw [← hq]; exact hfi), ?_⟩
    rw [← hq, hrank]
    exact div_self (ne_of_gt htot)

/-- Witness for C6 on the concrete 2x2 grid with samples `[3, absent, 1, 3]`. -/
theorem uniform_noise_range_spec_witness :
    ((∀ i < 2 * 2, sampleA i ≠ some F32.nan) ∧ ∃ c, c < 2 * 2 ∧ (sampleA c).isSome) ∧
    ∃ g, uniform_noise 2 2 sampleA = some g ∧
      (∀ i q, i < 2 * 2 → sampleA i = some (F32.val q) →
        ∃ fr, g[i]? = some (fr, F32.val q) ∧ 0 < fr ∧ fr ≤ 1 ∧
          1 / (totalCount (2 * 2) sampleA : ℚ) ≤ fr) ∧
      (∃ i q fr, i < 2 * 2 ∧ sampleA i = some (F32.val q) ∧
        g[i]? = some (fr, F32.val q) ∧ fr = 1 / (totalCount (2 * 2) sampleA : ℚ)) ∧
      (∃ i q fr, i < 2 * 2 ∧ sampleA i = some (F32.val q) ∧
        g[i]? = some (fr, F32.val q) ∧ fr = 1) :=
  ⟨⟨by decide, ⟨0, by decide, by decide⟩⟩,
    uniform_noise_range_spec 2 2 sampleA (by decide) ⟨0, by decide, by decide⟩⟩

theorem noisePairs_nil {n : ℕ} {f : ℕ → Option F32} (habs : ∀ i < n, f i = none) :
    noisePairs n f = [] := by
  rw [List.eq_nil_iff_forall_not_mem]
  intro e he
  obtain ⟨h1, h2⟩ := mem_noisePairs.mp he
  rw [habs e.1 h1] at h2
  exact Option.noConfusion h2

/-- C8: if every sample is absent, `uniform_noise` returns normally (no
division by zero) and every one of the `wx * wy` output pairs is
`(0.0, 0.0)`. -/
theorem uniform_noise_all_absent (wx wy : ℕ) (f : ℕ → Option F32)
    (habs : ∀ i < wx * wy, f i = none) :
    uniform_noise wx wy f = some (List.replicate (wx * wy) ((0 : ℚ), F32.val 0)) := by
  unfold uniform_noise
  rw [noisePairs_nil habs]
  rfl

/-- Witness for C8: the spec's degenerate case, a 2x2 grid with every sample
absent. -/
theorem uniform_noise_all_absent_witness :
    (∀ i < 2 * 2, sampleNone i = none) ∧
    uniform_noise 2 2 sampleNone = some (List.replicate (2 * 2) ((0 : ℚ), F32.val 0)) :=
  ⟨by decide, uniform_noise_all_absent 2 2 sampleNone (by decide)⟩

theorem noisePairs_succ (n : ℕ) (f : ℕ → Option F32) :
    noisePairs (n + 1) f = noisePairs n f ++
      (match f n with | none => [] | some v => [(n, v)]) := by
  unfold noisePairs
  rw [List.range_succ, List.filterMap_append]
  congr 1
  rcases h : f n with - | v <;> simp [List.filterMap_cons, h]

theorem noisePairs_singleton {n c : ℕ} {v : F32} {f : ℕ → Option F32}
    (hc : c < n) (hfc : f c = some v) (habs : ∀ i < n, i ≠ c → f i = none) :
    noisePairs n f = [(c, v)] := by
  induction n with
  | zero => omega
  | succ n ih =>
    rw [noisePairs_succ]
    by_cases hcn : c = n
    · subst hcn
      rw [noisePairs_nil (fun i hi => habs i (by omega) (by omega)), hfc]
      rfl
    · have hfn : f n = none := habs n (by omega) (fun h => hcn h.symm)
      rw [hfn, ih (by omega) (fun i hi hne => habs i (by omega) hne)]
      simp

/-- Shared helper: evaluation of `uniform_noise` when the only present
sample, at cell `c`, is NaN.  A one-element list is sorted without any
comparison, so the comparator's `unwrap` never runs. -/
theorem uniform_noise_single_present_nan_aux (wx wy c : ℕ) (f : ℕ → Option F32)
    (hc : c < wx * wy) (hnanc : f c = some F32.nan)
    (habs : ∀ i < wx * wy, i ≠ c → f i = none) :
    ∃ g, uniform_noise wx wy f = some g ∧ g.length = wx * wy ∧
      g[c]? = some ((1 : ℚ), F32.nan) ∧
      ∀ i < wx * wy, i ≠ c → g[i]? = some ((0 : ℚ), F32.val 0) := by
  have hnp : noisePairs (wx * wy) f = [(c, F32.nan)] :=
    noisePairs_singleton hc hnanc habs
  unfold uniform_noise
  rw [hnp]
  have hsone : sortByCmp [(c, F32.nan)] = some [(c, F32.nan)] := rfl
  rw [hsone]
  have hg : writeRanks ((([(c, F32.nan)] : List (ℕ × F32)).length : ℕ) : ℚ)
      ([(c, F32.nan)] : List (ℕ × F32)).enum
      (List.replicate (wx * wy) ((0 : ℚ), F32.val 0)) =
      (List.replicate (wx * wy) ((0 : ℚ), F32.val 0)).set c ((1 : ℚ), F32.nan) := by
    show (List.replicate (wx * wy) ((0 : ℚ), F32.val 0)).set c
        (((1 + 0 : ℕ) : ℚ) / ((1 : ℕ) : ℚ), F32.nan) = _
    norm_num
  rw [Option.map_some', hg]
  refine ⟨_, rfl, by simp, ?_, ?_⟩
  · rw [List.getElem?_set_self (by simpa using hc)]
  · intro i hi hne
    rw [List.getElem?_set_ne (fun h => hne h.symm), List.getElem?_replicate_of_lt hi]

/-- C10: if exactly one cell's sample is present and it is NaN,
`uniform_noise` returns normally (a one-element list is sorted without any
comparison, so the NaN check never runs): the output holds `(1.0, NaN)` at
that cell and `(0.0, 0.0)` everywhere else. -/
theorem uniform_noise_single_nan (wx wy c : ℕ) (f : ℕ → Option F32)
    (hc : c < wx * wy) (hnanc : f c = some F32.nan)
    (habs : ∀ i < wx * wy, i ≠ c → f i = none) :
    ∃ g, uniform_noise wx wy f = some g ∧ g.length = wx * wy ∧
      g[c]? = some ((1 : ℚ), F32.nan) ∧
      ∀ i < wx * wy, i ≠ c → g[i]? = some ((0 : ℚ), F32.val 0) :=
  uniform_noise_single_present_nan_aux wx wy c f hc hnanc habs

/-- Witness for C10: 2x2 grid whose only present sample, at cell 1, is NaN. -/
theorem uniform_noise_single_nan_witness :
    (1 < 2 * 2 ∧ sampleC 1 = some F32.nan ∧
      (∀ i < 2 * 2, i ≠ 1 → sampleC i = none)) ∧
    ∃ g, uniform_noise 2 2 sampleC = some g ∧ g.length = 2 * 2 ∧
      g[1]? = some ((1 : ℚ), F32.nan) ∧
      ∀ i < 2 * 2, i ≠ 1 → g[i]? = some ((0 : ℚ), F32.val 0) :=
  ⟨⟨by decide, by decide, by decide⟩,
    uniform_noise_single_nan 2 2 1 sampleC (by decide) (by decide) (by decide)⟩

/-- C5 counterexample: the claim "any sampling function returning NaN as a
present value makes `uniform_noise` panic" is false: when the NaN sample is
the only present sample, `uniform_noise` returns a grid instead of
panicking. -/
theorem uniform_noise_nan_no_panic_counterexample :
    uniform_noise 1 1 (fun _ => some F32.nan) = some [((1 : ℚ), F32.nan)] ∧
    uniform_noise 1 1 (fun _ => some F32.nan) ≠ none := by
  obtain ⟨g, hg, hlen, h0, -⟩ := uniform_noise_single_present_nan_aux 1 1 0
    (fun _ => some F32.nan) (by norm_num) rfl
    (fun i hi hne => absurd (by omega : i = 0) hne)
  rcases g with - | ⟨a, t⟩
  · exact absurd hlen (by simp)
  · rcases t with - | ⟨b, u⟩
    · simp only [List.getElem?_cons_zero, Option.some.injEq] at h0
      subst h0
      exact ⟨hg, by rw [hg]; exact Option.noConfusion⟩
    · exact absurd hlen (by simp)

/-- C5 (amended): if some cell's sample is NaN and at least two samples are
present, `uniform_noise` panics (the sort is guaranteed to perform a
comparison involving the NaN entry, and the comparator's `unwrap` fails). -/
theorem uniform_noise_nan_panics (wx wy c : ℕ) (f : ℕ → Option F32)
    (hc : c < wx * wy) (hnanc : f c = some F32.nan)
    (h2 : 2 ≤ totalCount (wx * wy) f) :
    uniform_noise wx wy f = none := by
  have hmem : (c, F32.nan) ∈ noisePairs (wx * wy) f := mem_noisePairs.mpr ⟨hc, hnanc⟩
  have hlen : 2 ≤ (noisePairs (wx * wy) f).length := by
    rw [noisePairs_length]
    exact h2
  have hnone := sortByCmp_none hlen ⟨(c, F32.nan), hmem, rfl⟩
  unfold uniform_noise
  rw [hnone]
  rfl

/-- Witness for the amended C5: a 2x1 grid with samples `[NaN, 0]` (two
present samples, one NaN) panics. -/
theorem uniform_noise_nan_panics_witness :
    (0 < 2 * 1 ∧ sampleB 0 = some F32.nan ∧ 2 ≤ totalCount (2 * 1) sampleB) ∧
    uniform_noise 2 1 sampleB = none :=
  ⟨⟨by decide, by decide, by decide⟩,
    uniform_noise_nan_panics 2 1 0 sampleB (by decide) (by decide) (by decide)⟩

/-! ## Claim theorems: the weighted Irwin–Hall CDF -/

/-- C2 (amended): for every `N` with `1 ≤ N ≤ 12` (the range in which the
`i32` factorial in the code is exact), and all weights and samples,
`cdf_irwin_hall` returns exactly the spec's closed form
`1 / (A * N!) * Σ_{S ⊆ {1..N}} (-1)^|S| * max(0, x − Σ_{k∈S} a_k)^N` at
`x = Σ a_k u_k`, the empty subset contributing `x^N`. -/
theorem cdf_irwin_hall_eq_spec (N : ℕ) (h1 : 1 ≤ N) (h12 : N ≤ 12)
    (weights samples : ℕ → ℚ) :
    cdf_irwin_hall N weights samples = cdf_spec N weights samples := by
  show (∑ subset in Finset.range (2 ^ N),
      (let k := count_ones subset
       let z := ∑ i in (Finset.range N).filter (fun i => subset.testBit i), weights i
       let z := (max 0 ((∑ i in Finset.range N, weights i * samples i) - z)) ^ N
       if k &&& 1 = 0 then z else -z)) / (∏ i in Finset.range N, weights i) /
      ((i32prod N : ℤ) : ℚ) =
    (1 / ((∏ i in Finset.range N, weights i) * (N.factorial : ℚ))) *
      ∑ S in (Finset.range N).powerset,
        (-1 : ℚ) ^ S.card * (max 0 ((∑ i in Finset.range N, weights i * samples i) -
          ∑ k in S, weights k)) ^ N
  rw [cdf_code_sum_eq N (by omega) weights
    (∑ i in Finset.range N, weights i * samples i)]
  rw [i32prod_eq_factorial h12]
  push_cast
  ring

/-- Witness for the amended C2 at `N = 2`, unit weights, samples `1/2`. -/
theorem cdf_irwin_hall_eq_spec_witness :
    (1 ≤ 2 ∧ 2 ≤ 12) ∧
    cdf_irwin_hall 2 (fun _ => 1) (fun _ => 1 / 2) =
      cdf_spec 2 (fun _ => 1) (fun _ => 1 / 2) :=
  ⟨⟨by norm_num, by norm_num⟩,
    cdf_irwin_hall_eq_spec 2 (by norm_num) (by norm_num) (fun _ => 1) (fun _ => 1 / 2)⟩

/-- C2 counterexample: at `N = 13` the claim fails.  With unit weights and
samples `1/26` the realized sum is `x = 1/2`, every nonempty subset term is
clamped to `0`, so the claimed value is `x^13 / 13!` — but the code divides
by the wrapped `i32` product `1932053504` instead of `13! = 6227020800`. -/
theorem cdf_irwin_hall_eq_spec_counterexample :
    cdf_irwin_hall 13 (fun _ => 1) (fun _ => 1 / 26) ≠
    cdf_spec 13 (fun _ => 1) (fun _ => 1 / 26) := by
  have hcode := cdf_irwin_hall_small_x 13 (by norm_num) (by norm_num)
    (fun _ => 1) (fun _ => 1 / 26)
    (by norm_num [Finset.sum_const, Finset.card_range])
    (by intro i hi; norm_num [Finset.sum_const, Finset.card_range])
    (by intro i hi; norm_num)
  have hspec := cdf_spec_small_x 13 (by norm_num)
    (fun _ => 1) (fun _ => 1 / 26)
    (by norm_num [Finset.sum_const, Finset.card_range])
    (by intro i hi; norm_num [Finset.sum_const, Finset.card_range])
    (by intro i hi; norm_num)
  rw [hcode, hspec]
  have hi32 : i32prod 13 = 1932053504 := by
    set_option maxRecDepth 10000 in decide
  have hfac : (Nat.factorial 13 : ℚ) = 6227020800 := by
    norm_num [Nat.factorial]
  rw [hi32, hfac]
  norm_num [Finset.sum_const, Finset.card_range, Finset.prod_const]

/-- C7: the claim of an exact `N!` divisor up to the documented ceiling
`N = 25` is violated by the code at `N = 13`: the `i32` product
`1*2*...*13` wraps modulo `2^32` to `1932053504`, while `13! = 6227020800`,
so the final division does not divide by `13!`.  (This also contradicts the
code's own doc comment, which promises correct results for all `N ≤ 33`.) -/
theorem i32prod_overflow_at_13 :
    i32prod 13 = 1932053504 ∧ (Nat.factorial 13 : ℤ) = 6227020800 ∧
    i32prod 13 ≠ (Nat.factorial 13 : ℤ) :=
  ⟨by set_option maxRecDepth 10000 in decide,
    by set_option maxRecDepth 10000 in decide,
    by set_option maxRecDepth 10000 in decide⟩

/-- C9: for `N = 1` with weight `1.0`, the evaluator is the identity CDF of
a single uniform variable: `F(u) = u` exactly for every `u ∈ [0, 1]`. -/
theorem cdf_irwin_hall_identity (u : ℚ) (h0 : 0 ≤ u) (h1 : u ≤ 1) :
    cdf_irwin_hall 1 (fun _ => 1) (fun _ => u) = u := by
  have hx : (∑ i in Finset.range 1, (fun _ => (1 : ℚ)) i * (fun _ => u) i) = u := by
    simp
  have h := cdf_irwin_hall_small_x 1 (by norm_num) (by norm_num)
    (fun _ => 1) (fun _ => u)
    (by simpa using h0)
    (by intro i hi; simpa using h1)
    (by intro i hi; norm_num)
  rw [h, hx]
  have hone : i32prod 1 = 1 := by decide
  rw [hone]
  simp

/-- Witness for C9 at `u = 1/2` (the spec's midpoint check). -/
theorem cdf_irwin_hall_identity_witness :
    ((0 : ℚ) ≤ 1 / 2 ∧ (1 / 2 : ℚ) ≤ 1) ∧
    cdf_irwin_hall 1 (fun _ => 1) (fun _ => 1 / 2) = 1 / 2 :=
  ⟨⟨by norm_num, by norm_num⟩,
    cdf_irwin_hall_identity (1 / 2) (by norm_num) (by norm_num)⟩
